import Mathlib

/-!
Verification of the graph-based feed-forward network in
`src/experiments/graph_ffnn.py` (class `GraphFFNN`).

Numbers are modelled by `ℚ` (exact arithmetic in place of floating point).
numpy vectors become functions `ℕ → ℚ` and numpy 2-D arrays become
functions `ℕ → ℕ → ℚ`; the array extents, which numpy keeps as `.shape`
attributes, are carried separately (`num_neurons`, the `shapes` list).
Entries outside the declared extent are never read by the translated
operations, mirroring the bounds of the numpy loops and slice assignments.

The latent state that `graph_forward` drives through `_step` is a full
`N × N` matrix in the source (both the initial load
`(graph_weights.T * state).T` and `_step` produce 2-D arrays); the
per-neuron activation vector associated with such a state is the vector of
its column sums (`colAct` below).
-/

/-- A numpy 1-D float array: index to rational value. -/
def Vec : Type := ℕ → ℚ

/-- A numpy 2-D float array: row index, column index to rational value. -/
def Mat : Type := ℕ → ℕ → ℚ

/-- The all-zeros vector. -/
def zeroVec : Vec := fun _ => 0

/-- The all-zeros matrix (`np.zeros`). -/
def zeroMat : Mat := fun _ _ => 0

/-- The numba kernel `_step(graph_weights, latent_graph_state)`:
`next_state = Σ_i graph_weights.T * latent_graph_state[i]` followed by a
final transpose, where `i` ranges over the `rows` rows of the state.
Entry `(a, b)` of the result is `Σ_i graph_weights[a][b] * state[i][a]`. -/
def _step (graph_weights : Mat) (latent_graph_state : Mat) (rows : ℕ) : Mat :=
  fun a b => ∑ i ∈ Finset.range rows, graph_weights a b * latent_graph_state i a

/-- Per-neuron activation read off a 2-D latent state: the column sums
over the state's `rows` rows. -/
def colAct (s : Mat) (rows : ℕ) : Vec :=
  fun a => ∑ i ∈ Finset.range rows, s i a

/-- Transposed matrix-vector product truncated to `n` terms:
`(matVecT g n v) b = Σ_{i < n} g[i][b] * v[i]`, i.e. `gᵀ · v`. -/
def matVecT (g : Mat) (n : ℕ) (v : Vec) : Vec :=
  fun b => ∑ i ∈ Finset.range n, g i b * v i

/-- `np.pad(x, (0, N - D))`: keep the first `D` entries of `x`, zeros after. -/
def padVec (x : Vec) (D : ℕ) : Vec :=
  fun i => if i < D then x i else 0

/-- The input-loading line of `graph_forward`:
`state = (graph_weights.T * state).T`, elementwise broadcast; entry
`(a, b)` is `graph_weights[a][b] * state[a]`. -/
def loadState (g : Mat) (v : Vec) : Mat :=
  fun a b => g a b * v a

/-- One slice assignment of `__init__`:
`graph_weights[off : off+n, off+n : off+d+n] = W`. -/
def placeBlock (g : Mat) (off n d : ℕ) (Wm : Mat) : Mat :=
  fun r c =>
    if off ≤ r ∧ r < off + n ∧ off + n ≤ c ∧ c < off + n + d then
      Wm (r - off) (c - (off + n))
    else g r c

/-- The block-placement loop of `__init__`: walk the `(shape, W)` pairs,
assign each block, advance the offset by the row count (`neuron_idx += N`). -/
def placeAll (g : Mat) (off : ℕ) : List ((ℕ × ℕ) × Mat) → Mat
  | [] => g
  | ((n, d), Wm) :: rest => placeAll (placeBlock g off n d Wm) (off + n) rest

/-- The self-loop loop of `__init__`: after `m` iterations the diagonal
entries `N-1, N-2, ..., N-m` have been set to `1`
(`graph_weights[-(i+1), -(i+1)] = 1` for `i in range(output_dim)`). -/
def addSelfLoops (g : Mat) (N : ℕ) : ℕ → Mat
  | 0 => g
  | m + 1 => fun r c =>
      if r = N - (m + 1) ∧ c = N - (m + 1) then 1 else addSelfLoops g N m r c

/-- The `.shape` attributes of the per-transition weight matrices: adjacent
pairs of the layer-size list `input_dim :: hidden_units ++ [output_dim]`. -/
def layerShapes (sizes : List ℕ) : List (ℕ × ℕ) :=
  sizes.zip sizes.tail

/-- The weight-drawing loop of `__init__`: one matrix per entry of
`hidden_units + [output_dim]`.  Randomness is modelled by an oracle list
`ws` of pre-drawn matrices, consumed in order. -/
def drawMats (ws : List Mat) : List ℕ → List Mat
  | [] => []
  | _ :: us => ws.headD zeroMat :: drawMats ws.tail us

/-- The bias-drawing branch of `__init__`: per layer, the pre-drawn random
vector when `use_bias`, else `np.zeros((units,))`. -/
def drawBiases (use_bias : Bool) (bs : List Vec) : List ℕ → List Vec
  | [] => []
  | _ :: us =>
      (if use_bias then bs.headD zeroVec else zeroVec) :: drawBiases use_bias bs.tail us

/-- `range(out, 0, -1)` as a list: `[out, out-1, ..., 1]`. -/
def downRange : ℕ → List ℕ
  | 0 => []
  | n + 1 => (n + 1) :: downRange n

/-- The body of `extract_output`'s loop, collecting
`latent_graph_state[-i, -i]` for each `i` of the index list. -/
def extractLoop (s : Mat) (N : ℕ) : List ℕ → List ℚ
  | [] => []
  | i :: rest => s (N - i) (N - i) :: extractLoop s N rest

/-- `extract_output(latent_graph_state)`: `Y[c] = state[-i, -i]` for
`i = out, out-1, ..., 1` with `c` counting up from `0`. -/
def extract_output (s : Mat) (N out : ℕ) : List ℚ :=
  extractLoop s N (downRange out)

/-- The layer loop of `normal_forward` acting on one input row `z`:
per transition, `Z = np.dot(W.T, Z); Z += np.transpose([B])`, i.e.
`z'[j] = (Σ_{i < n} W[i][j] * z[i]) + B[j]` where `n` is the row count of
`W`'s shape.  The three lists are walked in step, as `zip(self.W, self.B)`
does with the shape read from each `W`. -/
def normalChain : List (ℕ × ℕ) → List Mat → List Vec → Vec → Vec
  | (n, _) :: shs, Wm :: ws, Bv :: bs, z =>
      normalChain shs ws bs (fun j => (∑ i ∈ Finset.range n, Wm i j * z i) + Bv j)
  | _, _, _, z => z

/-- The fields a `GraphFFNN` instance carries after `__init__`. -/
structure GraphFFNN where
  input_dim : ℕ
  hidden_units : List ℕ
  output_dim : ℕ
  W : List Mat
  B : List Vec
  shapes : List (ℕ × ℕ)
  num_neurons : ℕ
  graph_weights : Mat

/-- `GraphFFNN.__init__(input_dim, hidden_units, output_dim, use_bias)`:
draw one weight matrix (and bias vector) per entry of
`hidden_units + [output_dim]`, accumulate `_num_neurons`, then build
`graph_weights` by block placement followed by the output self-loops.
The random draws are supplied through the oracle lists `randW`, `randB`. -/
def GraphFFNN.init (input_dim : ℕ) (hidden_units : List ℕ) (output_dim : ℕ)
    (use_bias : Bool) (randW : List Mat) (randB : List Vec) : GraphFFNN :=
  let units := hidden_units ++ [output_dim]
  let sizes := input_dim :: units
  let W := drawMats randW units
  let B := drawBiases use_bias randB units
  let shapes := layerShapes sizes
  let N := sizes.sum
  let g := addSelfLoops (placeAll zeroMat 0 (shapes.zip W)) N output_dim
  ⟨input_dim, hidden_units, output_dim, W, B, shapes, N, g⟩

/-- `GraphFFNN.graph_step`: delegate to the `_step` kernel; the state is an
`N × N` array, so its row count is `num_neurons`. -/
def GraphFFNN.graph_step (net : GraphFFNN) (latent_graph_state : Mat) : Mat :=
  _step net.graph_weights latent_graph_state net.num_neurons

/-- `GraphFFNN.graph_forward(X)`: take `X[0]`, zero-pad it to length `N`,
load it with `state = (graph_weights.T * state).T`, run `graph_step`
`len(hidden_units) + 1` times, and wrap the extracted output row in a
1-row matrix (`np.expand_dims(..., axis=0)`). -/
def GraphFFNN.graph_forward (net : GraphFFNN) (X : List Vec) : List (List ℚ) :=
  let state := padVec (X.headD zeroVec) net.input_dim
  let s0 := loadState net.graph_weights state
  let sL := net.graph_step^[net.hidden_units.length + 1] s0
  [extract_output sL net.num_neurons net.output_dim]

/-- `GraphFFNN.normal_forward(X)`: `Z = X.T`, sequential layer application,
`Y = Z.T`.  Matrix columns evolve independently, so the pass is the
per-row map of the layer chain. -/
def GraphFFNN.normal_forward (net : GraphFFNN) (X : List Vec) : List Vec :=
  X.map (fun x => normalChain net.shapes net.W net.B x)

/-!
## Generic facts about the block-placement and self-loop loops
-/

/-- The vector `y` re-based at offset `off`, zero outside `[off, off+len)`. -/
def embedAt (off len : ℕ) (y : Vec) : Vec :=
  fun i => if off ≤ i ∧ i < off + len then y (i - off) else 0

/-- The width of the last layer of `prev :: us`. -/
def outWidth (prev : ℕ) : List ℕ → ℕ
  | [] => prev
  | u :: us => outWidth u us

/-- The `(shape, weight)` pairs the placement loop walks, recomputed from
the layer-size suffix. -/
def suffixBlocks (prev : ℕ) : List ℕ → List Mat → List ((ℕ × ℕ) × Mat)
  | [], _ => []
  | u :: us, ws => ((prev, u), ws.headD zeroMat) :: suffixBlocks u us ws.tail

/-- Membership of an entry position in one of the placed blocks. -/
def InSomeBlock (off r c : ℕ) : List ((ℕ × ℕ) × Mat) → Prop
  | [] => False
  | ((n, d), _) :: rest =>
      (off ≤ r ∧ r < off + n ∧ off + n ≤ c ∧ c < off + n + d) ∨ InSomeBlock (off + n) r c rest

/-- Reference chain of transposed matrix-vector products, one per layer
transition, starting from a width-`prev` vector. -/
def chainRun (prev : ℕ) (x : Vec) : List ℕ → List Mat → Vec
  | [], _ => x
  | u :: us, ws => chainRun u (matVecT (ws.headD zeroMat) prev x) us ws.tail

theorem placeAll_low (blocks : List ((ℕ × ℕ) × Mat)) :
    ∀ (g : Mat) (off r c : ℕ), r < off → placeAll g off blocks r c = g r c := by
  induction blocks with
  | nil => intro g off r c _; rfl
  | cons b rest ih =>
      obtain ⟨⟨n, d⟩, Wm⟩ := b
      intro g off r c hr
      show placeAll (placeBlock g off n d Wm) (off + n) rest r c = g r c
      rw [ih _ _ _ _ (by omega)]
      simp only [placeBlock]
      rw [if_neg (by omega)]

theorem placeAll_notin (blocks : List ((ℕ × ℕ) × Mat)) :
    ∀ (g : Mat) (off r c : ℕ), ¬ InSomeBlock off r c blocks →
      placeAll g off blocks r c = g r c := by
  induction blocks with
  | nil => intro g off r c _; rfl
  | cons b rest ih =>
      obtain ⟨⟨n, d⟩, Wm⟩ := b
      intro g off r c hni
      simp only [InSomeBlock, not_or] at hni
      show placeAll (placeBlock g off n d Wm) (off + n) rest r c = g r c
      rw [ih _ _ _ _ hni.2]
      simp only [placeBlock]
      rw [if_neg (by intro hcond; exact hni.1 ⟨hcond.1, hcond.2.1, hcond.2.2.1, hcond.2.2.2⟩)]

theorem addSelfLoops_eq (g : Mat) (N : ℕ) :
    ∀ (m : ℕ), m ≤ N → ∀ r c,
      addSelfLoops g N m r c = if N - m ≤ r ∧ r < N ∧ c = r then 1 else g r c := by
  intro m
  induction m with
  | zero => intro _ r c; simp only [addSelfLoops]; rw [if_neg (by omega)]
  | succ m ih =>
      intro hm r c
      simp only [addSelfLoops]
      rw [ih (by omega)]
      by_cases h1 : r = N - (m + 1) ∧ c = N - (m + 1)
      · rw [if_pos h1, if_pos (by omega)]
      · rw [if_neg h1]
        by_cases h2 : N - m ≤ r ∧ r < N ∧ c = r
        · rw [if_pos h2, if_pos (by omega)]
        · rw [if_neg h2, if_neg (by omega)]

theorem outWidth_le (us : List ℕ) : ∀ prev, outWidth prev us ≤ prev + us.sum := by
  induction us with
  | nil => intro prev; simp [outWidth]
  | cons u us ih =>
      intro prev
      have := ih u
      simp only [outWidth, List.sum_cons]
      omega

theorem outWidth_append (l : List ℕ) (w : ℕ) : ∀ prev, outWidth prev (l ++ [w]) = w := by
  induction l with
  | nil => intro prev; rfl
  | cons u us ih => intro prev; simpa [outWidth] using ih u

/-- Row-by-row description of the built `graph_weights` from layer offset
`off` on: each width-`prev` layer block feeds the next block through its
weight matrix, and the rows of the final (output) block carry exactly the
unit self-loop. -/
def Implements (G : Mat) : ℕ → ℕ → List ℕ → List Mat → Prop
  | off, prev, [], _ =>
      ∀ j, j < prev → ∀ b, G (off + j) b = if b = off + j then 1 else 0
  | off, prev, u :: us, ws =>
      (∀ j, j < prev → ∀ b,
        G (off + j) b =
          if off + prev ≤ b ∧ b < off + prev + u then
            (ws.headD zeroMat) j (b - (off + prev))
          else 0)
      ∧ Implements G (off + prev) u us ws.tail

theorem implements_build :
    ∀ (us : List ℕ) (ws : List Mat) (g : Mat) (off prev N odim : ℕ),
      (∀ r c, off ≤ r → g r c = 0) →
      off + prev + us.sum = N →
      outWidth prev us = odim →
      Implements (addSelfLoops (placeAll g off (suffixBlocks prev us ws)) N odim)
        off prev us ws := by
  intro us
  induction us with
  | nil =>
      intro ws g off prev N odim hz hsum hout
      intro j hj b
      simp only [outWidth] at hout
      simp only [List.sum_nil] at hsum
      subst hout
      simp only [suffixBlocks, placeAll]
      rw [addSelfLoops_eq g N prev (by omega)]
      by_cases hb : b = off + j
      · rw [if_pos (by omega), if_pos hb]
      · rw [if_neg (by omega), if_neg hb, hz _ _ (by omega)]
  | cons u us ih =>
      intro ws g off prev N odim hz hsum hout
      simp only [List.sum_cons] at hsum
      simp only [outWidth] at hout
      have hod : odim ≤ u + us.sum := hout ▸ outWidth_le us u
      constructor
      · intro j hj b
        simp only [suffixBlocks, placeAll]
        rw [addSelfLoops_eq _ N odim (by omega)]
        rw [if_neg (show ¬(N - odim ≤ off + j ∧ off + j < N ∧ b = off + j) by omega)]
        rw [placeAll_low _ _ _ _ _ (by omega)]
        simp only [placeBlock]
        by_cases hb : off + prev ≤ b ∧ b < off + prev + u
        · rw [if_pos (by omega), if_pos hb]
          simp only [Nat.add_sub_cancel_left]
        · rw [if_neg (by omega), if_neg hb, hz _ _ (by omega)]
      · have hz' : ∀ r c, off + prev ≤ r → placeBlock g off prev u (ws.headD zeroMat) r c = 0 := by
          intro r c hr
          simp only [placeBlock]
          rw [if_neg (by omega)]
          exact hz _ _ (by omega)
        have := ih ws.tail (placeBlock g off prev u (ws.headD zeroMat)) (off + prev) u N odim
          hz' (by omega) hout
        simpa only [suffixBlocks, placeAll] using this

theorem getD_zero_headD {α : Type} (l : List α) (d : α) : l.getD 0 d = l.headD d := by
  cases l <;> rfl

theorem getD_succ_tail {α : Type} (l : List α) (n : ℕ) (d : α) :
    l.getD (n + 1) d = l.tail.getD n d := by
  cases l <;> simp [List.getD]

theorem Implements.rowFact :
    ∀ (us : List ℕ) (ws : List Mat) (G : Mat) (off prev : ℕ),
      Implements G off prev us ws →
      ∀ k, k < us.length → ∀ j, j < (prev :: us).getD k 0 → ∀ b,
        G (off + ((prev :: us).take k).sum + j) b =
          if off + ((prev :: us).take (k + 1)).sum ≤ b ∧
             b < off + ((prev :: us).take (k + 1)).sum + us.getD k 0 then
            (ws.getD k zeroMat) j (b - (off + ((prev :: us).take (k + 1)).sum))
          else 0 := by
  intro us
  induction us with
  | nil => intro ws G off prev _ k hk; exact absurd hk (by simp)
  | cons u us ih =>
      intro ws G off prev h k hk j hj b
      obtain ⟨h1, h2⟩ := h
      match k with
      | 0 =>
          simp only [List.getD_cons_zero] at hj
          simp only [List.take_zero, List.sum_nil, add_zero, List.take_succ_cons,
            List.sum_cons, List.getD_cons_zero, getD_zero_headD]
          exact h1 j hj b
      | k' + 1 =>
          simp only [List.getD_cons_succ] at hj
          simp only [List.take_succ_cons, List.sum_cons, List.getD_cons_succ,
            getD_succ_tail ws]
          simp only [← add_assoc]
          have := ih ws.tail G (off + prev) u h2 k' (by simpa using hk) j hj b
          simp only [List.take_succ_cons, List.sum_cons, ← add_assoc] at this
          exact this

theorem Implements.outFact :
    ∀ (us : List ℕ) (ws : List Mat) (G : Mat) (off prev : ℕ),
      Implements G off prev us ws →
      ∀ j, j < outWidth prev us → ∀ b,
        G (off + prev + us.sum - outWidth prev us + j) b =
          if b = off + prev + us.sum - outWidth prev us + j then 1 else 0 := by
  intro us
  induction us with
  | nil =>
      intro ws G off prev h j hj b
      simp only [outWidth] at hj ⊢
      simp only [List.sum_nil]
      have e : off + prev + 0 - prev + j = off + j := by omega
      simp only [e]
      exact h j hj b
  | cons u us ih =>
      intro ws G off prev h j hj b
      obtain ⟨_, h2⟩ := h
      simp only [outWidth] at hj ⊢
      simp only [List.sum_cons]
      have e : off + prev + (u + us.sum) - outWidth u us + j
          = off + prev + u + us.sum - outWidth u us + j := by omega
      simp only [e]
      exact ih ws.tail G (off + prev) u h2 j hj b

theorem sum_range_restrict (F : ℕ → ℚ) (N off len : ℕ) (hle : off + len ≤ N)
    (hz : ∀ i, i < off ∨ off + len ≤ i → F i = 0) :
    ∑ i ∈ Finset.range N, F i = ∑ i ∈ Finset.range len, F (off + i) := by
  rw [Finset.range_eq_Ico]
  rw [← Finset.sum_subset (Finset.Ico_subset_Ico (Nat.zero_le off) hle)
    (by intro i _ hi; simp only [Finset.mem_Ico] at hi; exact hz i (by omega))]
  rw [Finset.sum_Ico_eq_sum_range]
  simp only [Nat.add_sub_cancel_left, Finset.range_eq_Ico]

theorem matVecT_embed_step (G : Mat) (N off prev u : ℕ) (W0 : Mat) (x : Vec)
    (hrow : ∀ j, j < prev → ∀ b,
      G (off + j) b =
        if off + prev ≤ b ∧ b < off + prev + u then W0 j (b - (off + prev)) else 0)
    (hle : off + prev ≤ N) :
    matVecT G N (embedAt off prev x) = embedAt (off + prev) u (matVecT W0 prev x) := by
  funext b
  show (∑ i ∈ Finset.range N, G i b * embedAt off prev x i) = _
  rw [sum_range_restrict _ N off prev hle
    (by intro i hi; simp only [embedAt]; rw [if_neg (by omega), mul_zero])]
  have hterm : ∀ j ∈ Finset.range prev,
      G (off + j) b * embedAt off prev x (off + j) =
        (if off + prev ≤ b ∧ b < off + prev + u then W0 j (b - (off + prev)) else 0) * x j := by
    intro j hj
    simp only [Finset.mem_range] at hj
    have he : embedAt off prev x (off + j) = x j := by
      simp only [embedAt]
      rw [if_pos (by omega), Nat.add_sub_cancel_left]
    rw [hrow j hj b, he]
  rw [Finset.sum_congr rfl hterm]
  by_cases hb : off + prev ≤ b ∧ b < off + prev + u
  · simp only [if_pos hb]
    simp only [embedAt, matVecT]
    rw [if_pos (by omega)]
  · simp only [if_neg hb, zero_mul, Finset.sum_const_zero]
    simp only [embedAt]
    rw [if_neg (by omega)]

theorem matVecT_embed_out (G : Mat) (N off w : ℕ) (y : Vec)
    (hrow : ∀ j, j < w → ∀ b, G (off + j) b = if b = off + j then 1 else 0)
    (heq : off + w = N) :
    matVecT G N (embedAt off w y) = embedAt off w y := by
  funext b
  show (∑ i ∈ Finset.range N, G i b * embedAt off w y i) = _
  rw [sum_range_restrict _ N off w (by omega)
    (by intro i hi; simp only [embedAt]; rw [if_neg (by omega), mul_zero])]
  have hterm : ∀ j ∈ Finset.range w,
      G (off + j) b * embedAt off w y (off + j) =
        (if b = off + j then 1 else 0) * y j := by
    intro j hj
    simp only [Finset.mem_range] at hj
    have he : embedAt off w y (off + j) = y j := by
      simp only [embedAt]
      rw [if_pos (by omega), Nat.add_sub_cancel_left]
    rw [hrow j hj b, he]
  rw [Finset.sum_congr rfl hterm]
  by_cases hb : off ≤ b ∧ b < off + w
  · rw [Finset.sum_eq_single (b - off)]
    · rw [if_pos (by omega), one_mul]
      simp only [embedAt]
      rw [if_pos (by omega)]
    · intro j hj hne
      simp only [Finset.mem_range] at hj
      rw [if_neg (by omega), zero_mul]
    · intro hnm
      simp only [Finset.mem_range] at hnm
      omega
  · rw [Finset.sum_eq_zero (by
      intro j hj
      simp only [Finset.mem_range] at hj
      rw [if_neg (by omega), zero_mul])]
    simp only [embedAt]
    rw [if_neg (by omega)]

theorem iterate_reaches :
    ∀ (k : ℕ) (us : List ℕ) (ws : List Mat) (G : Mat) (N off prev : ℕ) (x : Vec),
      Implements G off prev us ws →
      off + prev + us.sum = N →
      k ≤ us.length →
      (matVecT G N)^[k] (embedAt off prev x) =
        embedAt (off + ((prev :: us).take k).sum) ((prev :: us).getD k 0)
          (chainRun prev x (us.take k) ws) := by
  intro k
  induction k with
  | zero =>
      intro us ws G N off prev x _ _ _
      simp only [Function.iterate_zero_apply, List.take_zero, List.sum_nil, add_zero,
        List.getD_cons_zero, chainRun]
  | succ k ih =>
      intro us ws G N off prev x h hsum hk
      match us with
      | [] => exact absurd hk (by simp)
      | u :: us' =>
          obtain ⟨h1, h2⟩ := h
          simp only [List.sum_cons] at hsum
          rw [Function.iterate_succ_apply]
          rw [matVecT_embed_step G N off prev u (ws.headD zeroMat) x h1 (by omega)]
          have := ih us' ws.tail G N (off + prev) u (matVecT (ws.headD zeroMat) prev x)
            h2 (by omega) (by simpa using hk)
          simp only [List.take_succ_cons, List.sum_cons, List.getD_cons_succ, chainRun,
            ← add_assoc]
          exact this

theorem iterate_stable (G : Mat) (N off w : ℕ) (y : Vec)
    (hrow : ∀ j, j < w → ∀ b, G (off + j) b = if b = off + j then 1 else 0)
    (heq : off + w = N) :
    ∀ m, (matVecT G N)^[m] (embedAt off w y) = embedAt off w y := by
  intro m
  induction m with
  | zero => rfl
  | succ m ih =>
      rw [Function.iterate_succ_apply', ih, matVecT_embed_out G N off w y hrow heq]

theorem graph_step_as_load (net : GraphFFNN) (s : Mat) :
    net.graph_step s = loadState net.graph_weights (colAct s net.num_neurons) := by
  funext a b
  show (∑ i ∈ Finset.range net.num_neurons, net.graph_weights a b * s i a) = _
  rw [← Finset.mul_sum]
  rfl

theorem colAct_loadState (g : Mat) (v : Vec) (N : ℕ) :
    colAct (loadState g v) N = matVecT g N v := rfl

theorem graph_step_iterate (net : GraphFFNN) (v : Vec) :
    ∀ k, net.graph_step^[k] (loadState net.graph_weights v) =
      loadState net.graph_weights ((matVecT net.graph_weights net.num_neurons)^[k] v) := by
  intro k
  induction k with
  | zero => rfl
  | succ k ih =>
      rw [Function.iterate_succ_apply', ih, graph_step_as_load, colAct_loadState,
        Function.iterate_succ_apply' (matVecT net.graph_weights net.num_neurons) k v]

theorem padVec_eq_embed (x : Vec) (D : ℕ) : padVec x D = embedAt 0 D x := by
  funext i
  simp [padVec, embedAt]

theorem downRange_length (n : ℕ) : (downRange n).length = n := by
  induction n with
  | zero => rfl
  | succ n ih => simp [downRange, ih]

theorem mem_downRange (n : ℕ) : ∀ i ∈ downRange n, 1 ≤ i ∧ i ≤ n := by
  induction n with
  | zero => simp [downRange]
  | succ n ih =>
      intro i hi
      simp only [downRange, List.mem_cons] at hi
      rcases hi with h | h
      · omega
      · have := ih i h; omega

theorem downRange_getD (n : ℕ) : ∀ c, c < n → (downRange n).getD c 0 = n - c := by
  induction n with
  | zero => intro c hc; omega
  | succ n ih =>
      intro c hc
      match c with
      | 0 => rfl
      | c' + 1 =>
          simp only [downRange, List.getD_cons_succ]
          rw [ih c' (by omega)]
          omega

theorem extractLoop_length (s : Mat) (N : ℕ) :
    ∀ is : List ℕ, (extractLoop s N is).length = is.length := by
  intro is
  induction is with
  | nil => rfl
  | cons i rest ih => simp [extractLoop, ih]

theorem extractLoop_getD (s : Mat) (N : ℕ) :
    ∀ (is : List ℕ) (c : ℕ), c < is.length →
      (extractLoop s N is).getD c 0 = s (N - is.getD c 0) (N - is.getD c 0) := by
  intro is
  induction is with
  | nil => intro c hc; simp at hc
  | cons i rest ih =>
      intro c hc
      match c with
      | 0 => rfl
      | c' + 1 =>
          simp only [extractLoop, List.getD_cons_succ]
          exact ih c' (by simpa using hc)

theorem extract_output_length (s : Mat) (N out : ℕ) :
    (extract_output s N out).length = out := by
  rw [extract_output, extractLoop_length, downRange_length]

theorem extract_output_getD (s : Mat) (N out c : ℕ) (hc : c < out) (ho : out ≤ N) :
    (extract_output s N out).getD c 0 = s (N - out + c) (N - out + c) := by
  rw [extract_output, extractLoop_getD s N _ c (by rw [downRange_length]; exact hc),
    downRange_getD out c hc]
  have e : N - (out - c) = N - out + c := by omega
  rw [e]

theorem init_input_dim (i : ℕ) (h : List ℕ) (o : ℕ) (ub : Bool) (Ws : List Mat) (Bs : List Vec) :
    (GraphFFNN.init i h o ub Ws Bs).input_dim = i := rfl

theorem init_hidden_units (i : ℕ) (h : List ℕ) (o : ℕ) (ub : Bool) (Ws : List Mat) (Bs : List Vec) :
    (GraphFFNN.init i h o ub Ws Bs).hidden_units = h := rfl

theorem init_output_dim (i : ℕ) (h : List ℕ) (o : ℕ) (ub : Bool) (Ws : List Mat) (Bs : List Vec) :
    (GraphFFNN.init i h o ub Ws Bs).output_dim = o := rfl

theorem init_W (i : ℕ) (h : List ℕ) (o : ℕ) (ub : Bool) (Ws : List Mat) (Bs : List Vec) :
    (GraphFFNN.init i h o ub Ws Bs).W = drawMats Ws (h ++ [o]) := rfl

theorem init_B (i : ℕ) (h : List ℕ) (o : ℕ) (ub : Bool) (Ws : List Mat) (Bs : List Vec) :
    (GraphFFNN.init i h o ub Ws Bs).B = drawBiases ub Bs (h ++ [o]) := rfl

theorem init_shapes (i : ℕ) (h : List ℕ) (o : ℕ) (ub : Bool) (Ws : List Mat) (Bs : List Vec) :
    (GraphFFNN.init i h o ub Ws Bs).shapes = layerShapes (i :: (h ++ [o])) := rfl

theorem init_num_neurons (i : ℕ) (h : List ℕ) (o : ℕ) (ub : Bool) (Ws : List Mat) (Bs : List Vec) :
    (GraphFFNN.init i h o ub Ws Bs).num_neurons = (i :: (h ++ [o])).sum := rfl

theorem init_graph_weights (i : ℕ) (h : List ℕ) (o : ℕ) (ub : Bool) (Ws : List Mat) (Bs : List Vec) :
    (GraphFFNN.init i h o ub Ws Bs).graph_weights =
      addSelfLoops
        (placeAll zeroMat 0 ((layerShapes (i :: (h ++ [o]))).zip (drawMats Ws (h ++ [o]))))
        ((i :: (h ++ [o])).sum) o := rfl

theorem drawMats_length (ws : List Mat) :
    ∀ us : List ℕ, (drawMats ws us).length = us.length := by
  intro us
  induction us generalizing ws with
  | nil => rfl
  | cons u us ih => simp [drawMats, ih]

theorem zip_shapes_eq_suffixBlocks :
    ∀ (us : List ℕ) (prev : ℕ) (ws : List Mat), ws.length = us.length →
      (layerShapes (prev :: us)).zip ws = suffixBlocks prev us ws := by
  intro us
  induction us with
  | nil => intro prev ws _; rfl
  | cons u us ih =>
      intro prev ws hlen
      match ws with
      | [] => simp at hlen
      | w :: ws' =>
          show ((prev, u) :: layerShapes (u :: us)).zip (w :: ws') = _
          simp only [List.zip_cons_cons, suffixBlocks, List.headD_cons, List.tail_cons]
          exact congrArg _ (ih u ws' (by simpa using hlen))

theorem sum_sizes (i : ℕ) (h : List ℕ) (o : ℕ) :
    (i :: (h ++ [o])).sum = i + h.sum + o := by
  simp [List.sum_append]
  omega

theorem take_hidden (h : List ℕ) (o : ℕ) :
    ∀ k, k = h.length → (h ++ [o]).take k = h := by
  induction h with
  | nil => intro k hk; subst hk; rfl
  | cons a h ih =>
      intro k hk
      subst hk
      simp only [List.cons_append, List.length_cons, List.take_succ_cons]
      rw [ih h.length rfl]

theorem getD_hidden_length (h : List ℕ) (o : ℕ) :
    ∀ k, k = h.length → (h ++ [o]).getD k 0 = o := by
  induction h with
  | nil => intro k hk; subst hk; rfl
  | cons a h ih =>
      intro k hk
      subst hk
      simp only [List.cons_append, List.length_cons, List.getD_cons_succ]
      exact ih h.length rfl

theorem take_full_append (h : List ℕ) (o : ℕ) :
    ∀ k, k = h.length + 1 → (h ++ [o]).take k = h ++ [o] := by
  induction h with
  | nil => intro k hk; subst hk; rfl
  | cons a h ih =>
      intro k hk
      subst hk
      simp only [List.cons_append, List.length_cons, List.take_succ_cons]
      rw [ih (h.length + 1) rfl]

theorem init_implements (idim : ℕ) (hidden : List ℕ) (odim : ℕ) (ub : Bool)
    (Ws : List Mat) (Bs : List Vec) :
    Implements (GraphFFNN.init idim hidden odim ub Ws Bs).graph_weights 0 idim
      (hidden ++ [odim]) (drawMats Ws (hidden ++ [odim])) := by
  rw [init_graph_weights]
  rw [zip_shapes_eq_suffixBlocks _ _ _ (by rw [drawMats_length])]
  exact implements_build (hidden ++ [odim]) (drawMats Ws (hidden ++ [odim])) zeroMat 0 idim
    ((idim :: (hidden ++ [odim])).sum) odim
    (fun _ _ _ => rfl)
    (by rw [sum_sizes, List.sum_append]; simp; omega)
    (outWidth_append hidden odim idim)

theorem graph_forward_eval (idim : ℕ) (hidden : List ℕ) (odim : ℕ) (ub : Bool)
    (Ws : List Mat) (Bs : List Vec) (x : Vec) (c : ℕ) (hc : c < odim) :
    (((GraphFFNN.init idim hidden odim ub Ws Bs).graph_forward [x]).headD []).getD c 0 =
      chainRun idim x (hidden ++ [odim]) (drawMats Ws (hidden ++ [odim])) c := by
  have himpl := init_implements idim hidden odim ub Ws Bs
  have hsum : 0 + idim + (hidden ++ [odim]).sum =
      (GraphFFNN.init idim hidden odim ub Ws Bs).num_neurons := by
    rw [init_num_neurons, sum_sizes, List.sum_append]
    simp
    omega
  simp only [GraphFFNN.graph_forward, List.headD_cons, init_input_dim, init_hidden_units,
    init_output_dim]
  rw [graph_step_iterate, padVec_eq_embed]
  rw [iterate_reaches (hidden.length + 1) (hidden ++ [odim]) (drawMats Ws (hidden ++ [odim]))
    (GraphFFNN.init idim hidden odim ub Ws Bs).graph_weights
    (GraphFFNN.init idim hidden odim ub Ws Bs).num_neurons 0 idim x himpl hsum (by simp)]
  rw [List.take_succ_cons, List.getD_cons_succ, take_hidden hidden odim hidden.length rfl,
    getD_hidden_length hidden odim hidden.length rfl, take_full_append hidden odim _ rfl]
  rw [extract_output_getD _ _ odim c hc (by rw [init_num_neurons, sum_sizes]; omega)]
  simp only [loadState]
  have hcw : c < outWidth idim (hidden ++ [odim]) := by rw [outWidth_append]; exact hc
  have houtF := Implements.outFact (hidden ++ [odim]) (drawMats Ws (hidden ++ [odim]))
    (GraphFFNN.init idim hidden odim ub Ws Bs).graph_weights 0 idim himpl c hcw
    ((GraphFFNN.init idim hidden odim ub Ws Bs).num_neurons - odim + c)
  have epos : 0 + idim + (hidden ++ [odim]).sum - outWidth idim (hidden ++ [odim]) + c =
      (GraphFFNN.init idim hidden odim ub Ws Bs).num_neurons - odim + c := by
    rw [outWidth_append, init_num_neurons, sum_sizes, List.sum_append]
    simp
    omega
  simp only [epos] at houtF
  simp only [if_true] at houtF
  rw [houtF, one_mul]
  simp only [embedAt, List.sum_cons, List.sum_append, List.sum_nil, add_zero,
    init_num_neurons, sum_sizes]
  rw [if_pos (by omega)]
  congr 1
  omega

theorem normalChain_nobias :
    ∀ (us : List ℕ) (prev : ℕ) (mo : List Mat) (bs : List Vec) (z : Vec),
      normalChain (layerShapes (prev :: us)) (drawMats mo us) (drawBiases false bs us) z =
        chainRun prev z us (drawMats mo us) := by
  intro us
  induction us with
  | nil => intro prev mo bs z; rfl
  | cons u us ih =>
      intro prev mo bs z
      show normalChain ((prev, u) :: layerShapes (u :: us))
        (mo.headD zeroMat :: drawMats mo.tail us)
        ((if false then bs.headD zeroVec else zeroVec) :: drawBiases false bs.tail us) z = _
      simp only [if_neg (by simp : ¬(false = true))]
      show normalChain (layerShapes (u :: us)) (drawMats mo.tail us) (drawBiases false bs.tail us)
        (fun j => (∑ i ∈ Finset.range prev, mo.headD zeroMat i j * z i) + zeroVec j) = _
      have hz : (fun j => (∑ i ∈ Finset.range prev, mo.headD zeroMat i j * z i) + zeroVec j) =
          matVecT (mo.headD zeroMat) prev z := by
        funext j
        simp [zeroVec, matVecT]
      rw [hz, ih u mo.tail bs.tail (matVecT (mo.headD zeroMat) prev z)]
      rfl

theorem normal_forward_nobias (idim : ℕ) (hidden : List ℕ) (odim : ℕ)
    (Ws : List Mat) (Bs : List Vec) (x : Vec) :
    (GraphFFNN.init idim hidden odim false Ws Bs).normal_forward [x] =
      [chainRun idim x (hidden ++ [odim]) (drawMats Ws (hidden ++ [odim]))] := by
  simp only [GraphFFNN.normal_forward, List.map, init_shapes, init_W, init_B]
  rw [normalChain_nobias]

theorem take_succ_sum (l : List ℕ) : ∀ k, (l.take (k + 1)).sum = (l.take k).sum + l.getD k 0 := by
  induction l with
  | nil => intro k; simp [List.getD]
  | cons a l ih =>
      intro k
      match k with
      | 0 => simp
      | k + 1 =>
          simp only [List.take_succ_cons, List.sum_cons, List.getD_cons_succ, ih k]
          omega

theorem extractLoop_zero (s : Mat) (N : ℕ) :
    ∀ is : List ℕ, (∀ i ∈ is, s (N - i) (N - i) = 0) →
      extractLoop s N is = List.replicate is.length 0 := by
  intro is
  induction is with
  | nil => intro _; rfl
  | cons i rest ih =>
      intro h
      simp only [extractLoop, List.length_cons, List.replicate_succ]
      rw [h i (by simp), ih (fun j hj => h j (by simp [hj]))]

theorem extract_output_zero (s : Mat) (N out : ℕ)
    (h : ∀ i, 1 ≤ i → i ≤ out → s (N - i) (N - i) = 0) :
    extract_output s N out = List.replicate out 0 := by
  rw [extract_output,
    extractLoop_zero s N (downRange out)
      (fun i hi => h i (mem_downRange out i hi).1 (mem_downRange out i hi).2),
    downRange_length]

theorem init_out_rows (idim : ℕ) (hidden : List ℕ) (odim : ℕ) (ub : Bool)
    (Ws : List Mat) (Bs : List Vec) :
    ∀ j, j < odim → ∀ b,
      (GraphFFNN.init idim hidden odim ub Ws Bs).graph_weights (idim + hidden.sum + j) b =
        if b = idim + hidden.sum + j then 1 else 0 := by
  intro j hj b
  have himpl := init_implements idim hidden odim ub Ws Bs
  have hcw : j < outWidth idim (hidden ++ [odim]) := by rw [outWidth_append]; exact hj
  have houtF := Implements.outFact (hidden ++ [odim]) (drawMats Ws (hidden ++ [odim]))
    (GraphFFNN.init idim hidden odim ub Ws Bs).graph_weights 0 idim himpl j hcw b
  have epos : 0 + idim + (hidden ++ [odim]).sum - outWidth idim (hidden ++ [odim]) + j =
      idim + hidden.sum + j := by
    rw [outWidth_append, List.sum_append]
    simp
    omega
  simp only [epos] at houtF
  exact houtF

theorem graph_state_full (idim : ℕ) (hidden : List ℕ) (odim : ℕ) (ub : Bool)
    (Ws : List Mat) (Bs : List Vec) (x : Vec) :
    (matVecT (GraphFFNN.init idim hidden odim ub Ws Bs).graph_weights
        (GraphFFNN.init idim hidden odim ub Ws Bs).num_neurons)^[hidden.length + 1]
      (embedAt 0 idim x) =
      embedAt (idim + hidden.sum) odim
        (chainRun idim x (hidden ++ [odim]) (drawMats Ws (hidden ++ [odim]))) := by
  have himpl := init_implements idim hidden odim ub Ws Bs
  have hsum : 0 + idim + (hidden ++ [odim]).sum =
      (GraphFFNN.init idim hidden odim ub Ws Bs).num_neurons := by
    rw [init_num_neurons, sum_sizes, List.sum_append]
    simp
    omega
  rw [iterate_reaches (hidden.length + 1) (hidden ++ [odim]) (drawMats Ws (hidden ++ [odim]))
    (GraphFFNN.init idim hidden odim ub Ws Bs).graph_weights
    (GraphFFNN.init idim hidden odim ub Ws Bs).num_neurons 0 idim x himpl hsum (by simp)]
  rw [List.take_succ_cons, List.getD_cons_succ, take_hidden hidden odim hidden.length rfl,
    getD_hidden_length hidden odim hidden.length rfl, take_full_append hidden odim _ rfl]
  simp only [List.sum_cons, zero_add]

theorem graph_state_after (idim : ℕ) (hidden : List ℕ) (odim : ℕ) (ub : Bool)
    (Ws : List Mat) (Bs : List Vec) (x : Vec) (k : ℕ) (hk : hidden.length + 1 ≤ k) :
    (GraphFFNN.init idim hidden odim ub Ws Bs).graph_step^[k]
        (loadState (GraphFFNN.init idim hidden odim ub Ws Bs).graph_weights
          (padVec x idim)) =
      (GraphFFNN.init idim hidden odim ub Ws Bs).graph_step^[hidden.length + 1]
        (loadState (GraphFFNN.init idim hidden odim ub Ws Bs).graph_weights
          (padVec x idim)) := by
  rw [graph_step_iterate, graph_step_iterate, padVec_eq_embed]
  have heq : idim + hidden.sum + odim =
      (GraphFFNN.init idim hidden odim ub Ws Bs).num_neurons := by
    rw [init_num_neurons, sum_sizes]
  apply congrArg
  rw [show k = (k - (hidden.length + 1)) + (hidden.length + 1) by omega,
    Function.iterate_add_apply, graph_state_full idim hidden odim ub Ws Bs x,
    iterate_stable _ _ (idim + hidden.sum) odim _
      (init_out_rows idim hidden odim ub Ws Bs) heq]

theorem drawBiases_length (ub : Bool) (bs : List Vec) :
    ∀ us : List ℕ, (drawBiases ub bs us).length = us.length := by
  intro us
  induction us generalizing bs with
  | nil => rfl
  | cons u us ih => simp [drawBiases, ih]

theorem drawBiases_false_zero (bs : List Vec) :
    ∀ (us : List ℕ) (bv : Vec), bv ∈ drawBiases false bs us → ∀ j, bv j = 0 := by
  intro us
  induction us generalizing bs with
  | nil => intro bv hbv; simp [drawBiases] at hbv
  | cons u us ih =>
      intro bv hbv j
      simp only [drawBiases, Bool.false_eq_true, if_false, List.mem_cons] at hbv
      rcases hbv with h | h
      · subst h; rfl
      · exact ih bs.tail bv h j

theorem inSomeBlock_imp :
    ∀ (us : List ℕ) (ws : List Mat) (prev off r c : ℕ),
      InSomeBlock off r c (suffixBlocks prev us ws) →
        ∃ k, k < us.length ∧
          off + ((prev :: us).take k).sum ≤ r ∧
          r < off + ((prev :: us).take k).sum + (prev :: us).getD k 0 ∧
          off + ((prev :: us).take (k + 1)).sum ≤ c ∧
          c < off + ((prev :: us).take (k + 1)).sum + us.getD k 0 := by
  intro us
  induction us with
  | nil => intro ws prev off r c h; exact absurd h (by simp [suffixBlocks, InSomeBlock])
  | cons u us ih =>
      intro ws prev off r c h
      rcases h with h | h
      · refine ⟨0, by simp, ?_, ?_, ?_, ?_⟩ <;>
          simp only [List.take_zero, List.sum_nil, List.take_succ_cons, List.take_zero,
            List.sum_cons, List.getD_cons_zero] <;> omega
      · obtain ⟨k, hk, h1, h2, h3, h4⟩ := ih ws.tail u (off + prev) r c h
        simp only [List.take_succ_cons, List.sum_cons, List.getD_cons_succ] at h1 h2 h3 h4
        refine ⟨k + 1, by simp; omega, ?_, ?_, ?_, ?_⟩ <;>
          simp only [List.take_succ_cons, List.sum_cons, List.getD_cons_succ] <;> omega

theorem init_block_entries (idim : ℕ) (hidden : List ℕ) (odim : ℕ) (ub : Bool)
    (Ws : List Mat) (Bs : List Vec) :
    ∀ k, k < hidden.length + 1 →
    ∀ j, j < (idim :: (hidden ++ [odim])).getD k 0 →
    ∀ b, b < (idim :: (hidden ++ [odim])).getD (k + 1) 0 →
      (GraphFFNN.init idim hidden odim ub Ws Bs).graph_weights
        (((idim :: (hidden ++ [odim])).take k).sum + j)
        (((idim :: (hidden ++ [odim])).take (k + 1)).sum + b) =
        ((GraphFFNN.init idim hidden odim ub Ws Bs).W).getD k zeroMat j b := by
  intro k hk j hj b hb
  have himpl := init_implements idim hidden odim ub Ws Bs
  have hrow := Implements.rowFact (hidden ++ [odim]) (drawMats Ws (hidden ++ [odim]))
    (GraphFFNN.init idim hidden odim ub Ws Bs).graph_weights 0 idim himpl
    k (by simpa using hk) j hj
    (((idim :: (hidden ++ [odim])).take (k + 1)).sum + b)
  simp only [zero_add] at hrow
  rw [hrow]
  rw [if_pos (by simp only [List.getD_cons_succ] at hb; omega)]
  rw [init_W, Nat.add_sub_cancel_left]

theorem init_zero_entries (idim : ℕ) (hidden : List ℕ) (odim : ℕ) (ub : Bool)
    (Ws : List Mat) (Bs : List Vec) :
    ∀ r c, r < (GraphFFNN.init idim hidden odim ub Ws Bs).num_neurons →
      c < (GraphFFNN.init idim hidden odim ub Ws Bs).num_neurons →
      (∀ k, k < hidden.length + 1 →
        ¬(((idim :: (hidden ++ [odim])).take k).sum ≤ r ∧
          r < ((idim :: (hidden ++ [odim])).take k).sum + (idim :: (hidden ++ [odim])).getD k 0 ∧
          ((idim :: (hidden ++ [odim])).take (k + 1)).sum ≤ c ∧
          c < ((idim :: (hidden ++ [odim])).take (k + 1)).sum +
            (idim :: (hidden ++ [odim])).getD (k + 1) 0)) →
      ¬(r = c ∧ (GraphFFNN.init idim hidden odim ub Ws Bs).num_neurons - odim ≤ r) →
      (GraphFFNN.init idim hidden odim ub Ws Bs).graph_weights r c = 0 := by
  intro r c hr hc hblocks hdiag
  rw [init_num_neurons] at hr hc hdiag
  rw [init_graph_weights,
    zip_shapes_eq_suffixBlocks _ _ _ (by rw [drawMats_length])]
  rw [addSelfLoops_eq _ _ odim (by rw [sum_sizes]; omega)]
  rw [if_neg (by omega)]
  have hnot : ¬ InSomeBlock 0 r c
      (suffixBlocks idim (hidden ++ [odim]) (drawMats Ws (hidden ++ [odim]))) := by
    intro hin
    obtain ⟨k, hk, h1, h2, h3, h4⟩ :=
      inSomeBlock_imp (hidden ++ [odim]) (drawMats Ws (hidden ++ [odim])) idim 0 r c hin
    refine hblocks k (by simpa using hk) ?_
    simp only [zero_add] at h1 h2 h3 h4
    exact ⟨h1, h2, h3, by simp only [List.getD_cons_succ]; exact h4⟩
  rw [placeAll_notin _ _ _ _ _ hnot]
  rfl

/-!
## Claim theorems
-/

/-- Claim C1: for every network constructed with `use_bias = false` (any
`input_dim ≥ 1`, any hidden sizes, any `output_dim ≥ 1`, any weight
matrices) and every single-row input, `graph_forward` and `normal_forward`
agree: both return one row, the graph row has `output_dim` entries, and
the entries coincide exactly (exact rational arithmetic in place of the
source's floating tolerance). -/
theorem C1_graph_forward_eq_normal_forward (idim : ℕ) (hidden : List ℕ) (odim : ℕ)
    (Ws : List Mat) (Bs : List Vec) (x : Vec) (_hi : 1 ≤ idim) (_ho : 1 ≤ odim) :
    ((GraphFFNN.init idim hidden odim false Ws Bs).graph_forward [x]).length = 1 ∧
    ((GraphFFNN.init idim hidden odim false Ws Bs).normal_forward [x]).length = 1 ∧
    (((GraphFFNN.init idim hidden odim false Ws Bs).graph_forward [x]).headD []).length = odim ∧
    ∀ c, c < odim →
      (((GraphFFNN.init idim hidden odim false Ws Bs).graph_forward [x]).headD []).getD c 0 =
        ((GraphFFNN.init idim hidden odim false Ws Bs).normal_forward [x]).headD zeroVec c := by
  refine ⟨rfl, rfl, ?_, ?_⟩
  · simp only [GraphFFNN.graph_forward, List.headD_cons, init_output_dim]
    exact extract_output_length _ _ _
  · intro c hc
    rw [graph_forward_eval idim hidden odim false Ws Bs x c hc, normal_forward_nobias,
      List.headD_cons]

/-- Witness for C1 at the concrete network with sizes 1 → 1, weight 2, input 3. -/
theorem C1_witness :
    ((1 : ℕ) ≤ 1) ∧ ((0 : ℕ) < 1) ∧
    (((GraphFFNN.init 1 [] 1 false [fun _ _ => (2 : ℚ)] []).graph_forward
      [fun _ => 3]).headD []).length = 1 ∧
    (((GraphFFNN.init 1 [] 1 false [fun _ _ => (2 : ℚ)] []).graph_forward
      [fun _ => 3]).headD []).getD 0 0 =
      ((GraphFFNN.init 1 [] 1 false [fun _ _ => (2 : ℚ)] []).normal_forward
        [fun _ => 3]).headD zeroVec 0 :=
  ⟨le_refl 1, by decide,
    (C1_graph_forward_eq_normal_forward 1 [] 1 [fun _ _ => (2 : ℚ)] [] (fun _ => 3)
      (by decide) (by decide)).2.2.1,
    (C1_graph_forward_eq_normal_forward 1 [] 1 [fun _ _ => (2 : ℚ)] [] (fun _ => 3)
      (by decide) (by decide)).2.2.2 0 (by decide)⟩

/-- Claim C2: one application of the `_step` kernel advances the per-neuron
activation vector of the latent state (the column sums of the `N × N` state
representation) by exactly one transposed matrix-vector product with
`graph_weights`: for every neuron `j`, the next activation at `j` is
`Σ_i activation[i] * graph_weights[i][j]`. -/
theorem C2_step_kernel_matvec (g s : Mat) (N j : ℕ) :
    colAct (_step g s N) N j = ∑ i ∈ Finset.range N, colAct s N i * g i j := by
  simp only [colAct, _step]
  apply Finset.sum_congr rfl
  intro a _
  rw [← Finset.mul_sum, mul_comm]

/-- Claim C5: running `len(hidden_units) + 1 + m` propagation steps (`m ≥ 1`
extra) before extraction yields exactly the `graph_forward` output. -/
theorem C5_extra_steps_preserve_output (idim : ℕ) (hidden : List ℕ) (odim : ℕ) (ub : Bool)
    (Ws : List Mat) (Bs : List Vec) (x : Vec) (m : ℕ) (hm : 1 ≤ m) :
    extract_output
      ((GraphFFNN.init idim hidden odim ub Ws Bs).graph_step^[hidden.length + 1 + m]
        (loadState (GraphFFNN.init idim hidden odim ub Ws Bs).graph_weights
          (padVec x idim)))
      (GraphFFNN.init idim hidden odim ub Ws Bs).num_neurons odim =
      ((GraphFFNN.init idim hidden odim ub Ws Bs).graph_forward [x]).headD [] := by
  rw [graph_state_after idim hidden odim ub Ws Bs x (hidden.length + 1 + m) (by omega)]
  simp only [GraphFFNN.graph_forward, List.headD_cons, init_input_dim, init_hidden_units,
    init_output_dim]

/-- Witness for C5: one extra step on the concrete 1 → 1 network. -/
theorem C5_witness :
    ((1 : ℕ) ≤ 1) ∧
    extract_output
      ((GraphFFNN.init 1 [] 1 false [fun _ _ => (2 : ℚ)] []).graph_step^[0 + 1 + 1]
        (loadState (GraphFFNN.init 1 [] 1 false [fun _ _ => (2 : ℚ)] []).graph_weights
          (padVec (fun _ => 3) 1)))
      (GraphFFNN.init 1 [] 1 false [fun _ _ => (2 : ℚ)] []).num_neurons 1 =
      ((GraphFFNN.init 1 [] 1 false [fun _ _ => (2 : ℚ)] []).graph_forward
        [fun _ => 3]).headD [] :=
  ⟨le_refl 1,
    C5_extra_steps_preserve_output 1 [] 1 false [fun _ _ => (2 : ℚ)] [] (fun _ => 3) 1
      (by decide)⟩

/-- Claim C6: running only `len(hidden_units)` propagation steps (one fewer
than required) and then extracting yields the all-zero vector of length
`output_dim` — the signal has not yet reached the output block. -/
theorem C6_one_step_short_gives_zeros (idim : ℕ) (hidden : List ℕ) (odim : ℕ) (ub : Bool)
    (Ws : List Mat) (Bs : List Vec) (x : Vec) :
    extract_output
      ((GraphFFNN.init idim hidden odim ub Ws Bs).graph_step^[hidden.length]
        (loadState (GraphFFNN.init idim hidden odim ub Ws Bs).graph_weights
          (padVec x idim)))
      (GraphFFNN.init idim hidden odim ub Ws Bs).num_neurons odim =
      List.replicate odim 0 := by
  have himpl := init_implements idim hidden odim ub Ws Bs
  have hsum : 0 + idim + (hidden ++ [odim]).sum =
      (GraphFFNN.init idim hidden odim ub Ws Bs).num_neurons := by
    rw [init_num_neurons, sum_sizes, List.sum_append]
    simp
    omega
  rw [graph_step_iterate, padVec_eq_embed]
  rw [iterate_reaches hidden.length (hidden ++ [odim]) (drawMats Ws (hidden ++ [odim]))
    (GraphFFNN.init idim hidden odim ub Ws Bs).graph_weights
    (GraphFFNN.init idim hidden odim ub Ws Bs).num_neurons 0 idim x himpl hsum (by simp)]
  apply extract_output_zero
  intro i h1 hi
  have hts : ((idim :: (hidden ++ [odim])).take (hidden.length + 1)).sum =
      idim + hidden.sum := by
    rw [List.take_succ_cons, take_hidden hidden odim hidden.length rfl, List.sum_cons]
  have hts2 := take_succ_sum (idim :: (hidden ++ [odim])) hidden.length
  have hN : (GraphFFNN.init idim hidden odim ub Ws Bs).num_neurons =
      idim + hidden.sum + odim := by rw [init_num_neurons, sum_sizes]
  simp only [loadState, embedAt, zero_add]
  rw [if_neg (by omega)]
  exact mul_zero _

/-- Claim C7: `extract_output` returns a list of length `output_dim` whose
entry at each position `c < output_dim` is the diagonal entry
`[N - output_dim + c, N - output_dim + c]` of the state representation, so
the extracted values are assembled in forward index order. -/
theorem C7_extract_output_indexing (s : Mat) (N out : ℕ) (ho : out ≤ N) :
    (extract_output s N out).length = out ∧
    ∀ c, c < out → (extract_output s N out).getD c 0 = s (N - out + c) (N - out + c) :=
  ⟨extract_output_length s N out, fun c hc => extract_output_getD s N out c hc ho⟩

/-- Witness for C7 on a concrete 3 × 3 state with two output neurons. -/
theorem C7_witness :
    ((2 : ℕ) ≤ 3) ∧ ((0 : ℕ) < 2) ∧
    (extract_output (fun a b => (10 * a + b : ℚ)) 3 2).length = 2 ∧
    (extract_output (fun a b => (10 * a + b : ℚ)) 3 2).getD 0 0 =
      ((fun a b => (10 * a + b : ℚ)) : Mat) (3 - 2 + 0) (3 - 2 + 0) :=
  ⟨by decide, by decide,
    (C7_extract_output_indexing (fun a b => (10 * a + b : ℚ)) 3 2 (by decide)).1,
    (C7_extract_output_indexing (fun a b => (10 * a + b : ℚ)) 3 2 (by decide)).2
      0 (by decide)⟩

/-- Claim C9: `graph_forward` on a multi-row input equals `graph_forward` on
just the first row (rows beyond the first never influence the result), and
the returned value is one row of `output_dim` entries. -/
theorem C9_first_row_only (idim : ℕ) (hidden : List ℕ) (odim : ℕ) (ub : Bool)
    (Ws : List Mat) (Bs : List Vec) (x : Vec) (rest : List Vec) :
    (GraphFFNN.init idim hidden odim ub Ws Bs).graph_forward (x :: rest) =
      (GraphFFNN.init idim hidden odim ub Ws Bs).graph_forward [x] ∧
    ((GraphFFNN.init idim hidden odim ub Ws Bs).graph_forward (x :: rest)).length = 1 ∧
    (((GraphFFNN.init idim hidden odim ub Ws Bs).graph_forward (x :: rest)).headD []).length =
      odim := by
  refine ⟨rfl, rfl, ?_⟩
  simp only [GraphFFNN.graph_forward, List.headD_cons, init_output_dim]
  exact extract_output_length _ _ _

/-- Claim C10: constructing with `use_bias = false` yields one bias vector
per transition (as many as weight matrices, `len(hidden_units) + 1` of
them), each identically zero; consequently `normal_forward`'s unconditional
per-layer bias addition adds zero and the pass reduces to the pure weight
chain. -/
theorem C10_biases_zero_without_use_bias (idim : ℕ) (hidden : List ℕ) (odim : ℕ)
    (Ws : List Mat) (Bs : List Vec) :
    ((GraphFFNN.init idim hidden odim false Ws Bs).B).length = hidden.length + 1 ∧
    ((GraphFFNN.init idim hidden odim false Ws Bs).B).length =
      ((GraphFFNN.init idim hidden odim false Ws Bs).W).length ∧
    (∀ bv ∈ (GraphFFNN.init idim hidden odim false Ws Bs).B, ∀ j, bv j = 0) ∧
    ∀ x : Vec, ((GraphFFNN.init idim hidden odim false Ws Bs).normal_forward [x]).headD zeroVec =
      chainRun idim x (hidden ++ [odim]) (drawMats Ws (hidden ++ [odim])) := by
  refine ⟨?_, ?_, ?_, ?_⟩
  · rw [init_B, drawBiases_length]
    simp
  · rw [init_B, init_W, drawBiases_length, drawMats_length]
  · rw [init_B]
    intro bv hbv j
    exact drawBiases_false_zero Bs (hidden ++ [odim]) bv hbv j
  · intro x
    rw [normal_forward_nobias idim hidden odim Ws Bs x, List.headD_cons]

/-- Witness for C10 at a concrete network with two transitions, including
the first bias vector evaluated at a point. -/
theorem C10_witness :
    ((GraphFFNN.init 3 [4] 2 false [fun _ _ => 1, fun _ _ => 1] []).B).length = 2 ∧
    ((GraphFFNN.init 3 [4] 2 false [fun _ _ => 1, fun _ _ => 1] []).B).length =
      ((GraphFFNN.init 3 [4] 2 false [fun _ _ => 1, fun _ _ => 1] []).W).length ∧
    ((GraphFFNN.init 3 [4] 2 false [fun _ _ => 1, fun _ _ => 1] []).B).headD zeroVec 0 = 0 :=
  ⟨(C10_biases_zero_without_use_bias 3 [4] 2 [fun _ _ => 1, fun _ _ => 1] []).1,
    (C10_biases_zero_without_use_bias 3 [4] 2 [fun _ _ => 1, fun _ _ => 1] []).2.1,
    (C10_biases_zero_without_use_bias 3 [4] 2 [fun _ _ => 1, fun _ _ => 1] []).2.2.1
      (((GraphFFNN.init 3 [4] 2 false [fun _ _ => 1, fun _ _ => 1] []).B).headD zeroVec)
      (by simp [GraphFFNN.init, drawBiases]) 0⟩

/-- Counterexample to claim C3 as stated: in `graph_forward` the state fed
to the driving loop is NOT the zero-padded input "with no weights yet
applied" — the load line `state = (graph_weights.T * state).T` already
applies `graph_weights` once.  On the network with sizes 1 → 1, weight 2
and input 1, the loop's initial state has per-neuron activation 2 at
neuron 1, while the zero-padded input has 0 there. -/
theorem C3_counterexample :
    colAct
      (loadState (GraphFFNN.init 1 [] 1 false [fun _ _ => (2 : ℚ)] []).graph_weights
        (padVec (fun _ => 1) 1))
      (GraphFFNN.init 1 [] 1 false [fun _ _ => (2 : ℚ)] []).num_neurons 1 ≠
      padVec (fun _ => 1) 1 1 := by
  norm_num [GraphFFNN.init, colAct, loadState, padVec, addSelfLoops, placeAll, placeBlock,
    layerShapes, drawMats, zeroMat, Finset.sum_range_succ]

/-- Claim C3 (amended): the driving loop starts from the loaded state, which
is one elementwise application of `graph_weights` to the zero-padded input
(its per-neuron activations already equal `graph_weightsᵀ · pad(x)`), and
then applies the step kernel exactly `len(hidden_units) + 1` times before
extraction; because extraction reads the output self-loop diagonal, the
extracted output still equals the last `output_dim` coordinates of exactly
`len(hidden_units) + 1` applications of `graph_weightsᵀ` to the zero-padded
input — the pre-loop load is the only other application of `graph_weights`
to the state and contributes no extra effective step. -/
theorem C3_amended_load_then_steps (idim : ℕ) (hidden : List ℕ) (odim : ℕ) (ub : Bool)
    (Ws : List Mat) (Bs : List Vec) (x : Vec) :
    colAct
      (loadState (GraphFFNN.init idim hidden odim ub Ws Bs).graph_weights (padVec x idim))
      (GraphFFNN.init idim hidden odim ub Ws Bs).num_neurons =
      matVecT (GraphFFNN.init idim hidden odim ub Ws Bs).graph_weights
        (GraphFFNN.init idim hidden odim ub Ws Bs).num_neurons (padVec x idim) ∧
    ∀ c, c < odim →
      (((GraphFFNN.init idim hidden odim ub Ws Bs).graph_forward [x]).headD []).getD c 0 =
        (matVecT (GraphFFNN.init idim hidden odim ub Ws Bs).graph_weights
          (GraphFFNN.init idim hidden odim ub Ws Bs).num_neurons)^[hidden.length + 1]
          (padVec x idim)
          ((GraphFFNN.init idim hidden odim ub Ws Bs).num_neurons - odim + c) := by
  refine ⟨colAct_loadState _ _ _, ?_⟩
  intro c hc
  rw [graph_forward_eval idim hidden odim ub Ws Bs x c hc]
  rw [padVec_eq_embed, graph_state_full idim hidden odim ub Ws Bs x]
  simp only [embedAt, init_num_neurons, sum_sizes]
  rw [if_pos (by omega)]
  congr 1
  omega

/-- Witness for the amended C3 on the concrete 1 → 1 network, instantiated
at output coordinate 0. -/
theorem C3_amended_witness :
    ((0 : ℕ) < 1) ∧
    colAct
      (loadState (GraphFFNN.init 1 [] 1 false [fun _ _ => (2 : ℚ)] []).graph_weights
        (padVec (fun _ => 3) 1))
      (GraphFFNN.init 1 [] 1 false [fun _ _ => (2 : ℚ)] []).num_neurons =
      matVecT (GraphFFNN.init 1 [] 1 false [fun _ _ => (2 : ℚ)] []).graph_weights
        (GraphFFNN.init 1 [] 1 false [fun _ _ => (2 : ℚ)] []).num_neurons
        (padVec (fun _ => 3) 1) ∧
    (((GraphFFNN.init 1 [] 1 false [fun _ _ => (2 : ℚ)] []).graph_forward
      [fun _ => 3]).headD []).getD 0 0 =
      (matVecT (GraphFFNN.init 1 [] 1 false [fun _ _ => (2 : ℚ)] []).graph_weights
        (GraphFFNN.init 1 [] 1 false [fun _ _ => (2 : ℚ)] []).num_neurons)^[
          ([] : List ℕ).length + 1]
        (padVec (fun _ => 3) 1)
        ((GraphFFNN.init 1 [] 1 false [fun _ _ => (2 : ℚ)] []).num_neurons - 1 + 0) :=
  ⟨by decide,
    (C3_amended_load_then_steps 1 [] 1 false [fun _ _ => (2 : ℚ)] [] (fun _ => 3)).1,
    (C3_amended_load_then_steps 1 [] 1 false [fun _ _ => (2 : ℚ)] [] (fun _ => 3)).2
      0 (by decide)⟩

/-- Claim C8: `graph_forward` never depends on the bias vectors: two
networks with the same weight draws but arbitrary differing `use_bias`
flags and bias draws return identical `graph_forward` output on every
input; consequently, whenever the biases change the reference output at an
output coordinate, `graph_forward` disagrees with `normal_forward` on the
biased network at that coordinate. -/
theorem C8_bias_noninterference (idim : ℕ) (hidden : List ℕ) (odim : ℕ)
    (ub ub' : Bool) (Ws : List Mat) (Bs Bs' : List Vec) (X : List Vec) :
    (GraphFFNN.init idim hidden odim ub Ws Bs).graph_forward X =
      (GraphFFNN.init idim hidden odim ub' Ws Bs').graph_forward X ∧
    ∀ x c, c < odim →
      ((GraphFFNN.init idim hidden odim true Ws Bs).normal_forward [x]).headD zeroVec c ≠
        ((GraphFFNN.init idim hidden odim false Ws Bs').normal_forward [x]).headD zeroVec c →
      (((GraphFFNN.init idim hidden odim true Ws Bs).graph_forward [x]).headD []).getD c 0 ≠
        ((GraphFFNN.init idim hidden odim true Ws Bs).normal_forward [x]).headD zeroVec c := by
  constructor
  · rfl
  · intro x c hc hne heq
    apply hne
    rw [← heq, graph_forward_eval idim hidden odim true Ws Bs x c hc,
      normal_forward_nobias idim hidden odim Ws Bs' x, List.headD_cons]

/-- Witness for C8: weight 1, bias 1, input 0 — the biased reference output
is 1, the unbiased one is 0, and the graph output disagrees with the biased
reference. -/
theorem C8_witness :
    ((0 : ℕ) < 1) ∧
    (((GraphFFNN.init 1 [] 1 true [fun _ _ => (1 : ℚ)] [fun _ => 1]).normal_forward
        [fun _ => 0]).headD zeroVec 0 ≠
      ((GraphFFNN.init 1 [] 1 false [fun _ _ => (1 : ℚ)] []).normal_forward
        [fun _ => 0]).headD zeroVec 0) ∧
    (((GraphFFNN.init 1 [] 1 true [fun _ _ => (1 : ℚ)] [fun _ => 1]).graph_forward
        [fun _ => 0]).headD []).getD 0 0 ≠
      ((GraphFFNN.init 1 [] 1 true [fun _ _ => (1 : ℚ)] [fun _ => 1]).normal_forward
        [fun _ => 0]).headD zeroVec 0 :=
  ⟨by decide,
    by norm_num [GraphFFNN.normal_forward, normalChain, GraphFFNN.init, drawMats, drawBiases,
      layerShapes, zeroVec, zeroMat, Finset.sum_range_succ],
    (C8_bias_noninterference 1 [] 1 true false [fun _ _ => (1 : ℚ)] [fun _ => 1] []
      [fun _ => 0]).2 (fun _ => 0) 0 (by decide)
      (by norm_num [GraphFFNN.normal_forward, normalChain, GraphFFNN.init, drawMats,
        drawBiases, layerShapes, zeroVec, zeroMat, Finset.sum_range_succ])⟩

/-- Claim C4: after construction, `graph_weights` is an `N × N` matrix with
`N = input_dim + Σ hidden_units + output_dim`; with the cumulative offset
`(sizes.take k).sum` (starting at 0, advancing by `prev_units` per
transition), the sub-block at rows `[offset, offset + prev_units)` and
columns `[offset + prev_units, offset + prev_units + units)` equals that
transition's weight matrix; the last `output_dim` diagonal entries equal 1;
every other entry is 0.  In this functional model the structure is fixed by
`GraphFFNN.init` and immutable: the forward, step and extraction operations
only read `graph_weights`. -/
theorem C4_graph_weights_structure (idim : ℕ) (hidden : List ℕ) (odim : ℕ) (ub : Bool)
    (Ws : List Mat) (Bs : List Vec) :
    (GraphFFNN.init idim hidden odim ub Ws Bs).num_neurons = idim + hidden.sum + odim ∧
    (∀ k, k < hidden.length + 1 →
      ∀ j, j < (idim :: (hidden ++ [odim])).getD k 0 →
      ∀ b, b < (idim :: (hidden ++ [odim])).getD (k + 1) 0 →
        (GraphFFNN.init idim hidden odim ub Ws Bs).graph_weights
          (((idim :: (hidden ++ [odim])).take k).sum + j)
          (((idim :: (hidden ++ [odim])).take (k + 1)).sum + b) =
          ((GraphFFNN.init idim hidden odim ub Ws Bs).W).getD k zeroMat j b) ∧
    (∀ c, (GraphFFNN.init idim hidden odim ub Ws Bs).num_neurons - odim ≤ c →
      c < (GraphFFNN.init idim hidden odim ub Ws Bs).num_neurons →
      (GraphFFNN.init idim hidden odim ub Ws Bs).graph_weights c c = 1) ∧
    (∀ r c, r < (GraphFFNN.init idim hidden odim ub Ws Bs).num_neurons →
      c < (GraphFFNN.init idim hidden odim ub Ws Bs).num_neurons →
      (∀ k, k < hidden.length + 1 →
        ¬(((idim :: (hidden ++ [odim])).take k).sum ≤ r ∧
          r < ((idim :: (hidden ++ [odim])).take k).sum +
            (idim :: (hidden ++ [odim])).getD k 0 ∧
          ((idim :: (hidden ++ [odim])).take (k + 1)).sum ≤ c ∧
          c < ((idim :: (hidden ++ [odim])).take (k + 1)).sum +
            (idim :: (hidden ++ [odim])).getD (k + 1) 0)) →
      ¬(r = c ∧ (GraphFFNN.init idim hidden odim ub Ws Bs).num_neurons - odim ≤ r) →
      (GraphFFNN.init idim hidden odim ub Ws Bs).graph_weights r c = 0) := by
  refine ⟨by rw [init_num_neurons, sum_sizes], init_block_entries idim hidden odim ub Ws Bs,
    ?_, init_zero_entries idim hidden odim ub Ws Bs⟩
  intro c h1 h2
  have hN : (GraphFFNN.init idim hidden odim ub Ws Bs).num_neurons =
      idim + hidden.sum + odim := by rw [init_num_neurons, sum_sizes]
  rw [hN] at h1 h2
  have hj : c - (idim + hidden.sum) < odim := by omega
  have hout := init_out_rows idim hidden odim ub Ws Bs (c - (idim + hidden.sum)) hj c
  have ec : idim + hidden.sum + (c - (idim + hidden.sum)) = c := by omega
  simp only [ec, if_true] at hout
  exact hout

/-- Witness for C4 on the concrete 1 → 1 network with weight 2:
`N = 2`, block entry `graph_weights[0][1] = 2`, self-loop
`graph_weights[1][1] = 1`, and the untouched entry `graph_weights[0][0] = 0`. -/
theorem C4_witness :
    (GraphFFNN.init 1 [] 1 false [fun _ _ => (2 : ℚ)] []).num_neurons = 2 ∧
    (GraphFFNN.init 1 [] 1 false [fun _ _ => (2 : ℚ)] []).graph_weights 0 1 = 2 ∧
    (GraphFFNN.init 1 [] 1 false [fun _ _ => (2 : ℚ)] []).graph_weights 1 1 = 1 ∧
    (GraphFFNN.init 1 [] 1 false [fun _ _ => (2 : ℚ)] []).graph_weights 0 0 = 0 := by
  refine ⟨(C4_graph_weights_structure 1 [] 1 false [fun _ _ => (2 : ℚ)] []).1, ?_, ?_, ?_⟩
  · exact (C4_graph_weights_structure 1 [] 1 false [fun _ _ => (2 : ℚ)] []).2.1
      0 (by decide) 0 (by decide) 0 (by decide)
  · exact (C4_graph_weights_structure 1 [] 1 false [fun _ _ => (2 : ℚ)] []).2.2.1
      1 (by decide) (by decide)
  · exact (C4_graph_weights_structure 1 [] 1 false [fun _ _ => (2 : ℚ)] []).2.2.2
      0 0 (by decide) (by decide) (by decide) (by decide)
